import Mathlib

/-!
Verification development for the agent-forge execution engine: the
priority-ordered hook pipeline, the tool invoker, the conversation loop and
the token-bucket rate limiter.  The repository ships documentation for these
components; the executable definitions below are modelled from the
specification text and the documented plugin/tool/rate-limiter contracts.
-/

/-- Modelled from the spec: the fixed enumeration of lifecycle event kinds
(section 4.2 and the plugin documentation); the implementation enum
`PluginLifecycleHooks` is not in the repository sources. -/
inductive EventKind where
  | frameworkInit
  | frameworkReady
  | frameworkShutdown
  | agentRegister
  | agentBeforeRun
  | agentAfterRun
  | agentError
  | llmBeforeRequest
  | llmAfterRequest
  | llmStreamStart
  | llmStreamEnd
  | toolBeforeExecute
  | toolAfterExecute
  | toolError
  | teamBeforeRun
  | teamAfterRun
  | workflowBeforeRun
  | workflowAfterRun
deriving DecidableEq

/-- Modelled from the spec: structured values carried in payloads and tool
results; the implementation's untyped payloads are not in the sources. -/
inductive Value where
  | vstr (s : String)
  | vnum (n : Int)
  | vnull
deriving DecidableEq

/-- Modelled from the spec: the mutable payload of a tool lifecycle event,
including the short-circuit flag and cached result documented for the
caching plugin (`_useCachedResult` / `_cachedResult`). -/
structure ToolPayload where
  toolName : String
  params : List (String × Value)
  useCachedResult : Bool
  cachedResult : Option Value
deriving DecidableEq

/-- Modelled from the spec: a hook handler either returns a (possibly
modified) payload that feeds the next handler, or raises a typed failure. -/
inductive HookResult (π : Type) where
  | next (p : π)
  | fail (e : String)

/-- Modelled from the spec: a RegisteredHandler with owning extension
identity, integer priority (higher runs first), subscribed event kinds and
registration index; the implementation's plugin manager is not in the
sources. -/
structure RegisteredHandler (π : Type) where
  extId : String
  priority : Int
  events : List EventKind
  regIndex : Nat
  handler : π → HookResult π

/-- Modelled from the spec: `register` appends a handler with the next
registration index and fails if the event-kind list is empty. -/
def register (reg : List (RegisteredHandler π)) (ext : String) (prio : Int)
    (evs : List EventKind) (f : π → HookResult π) :
    Option (List (RegisteredHandler π)) :=
  if evs.isEmpty then none
  else some (reg ++ [⟨ext, prio, evs, reg.length, f⟩])

/-- Modelled from the spec: the dispatch ordering relation, descending
priority with ties broken by registration index. -/
def runsBefore (a b : RegisteredHandler π) : Prop :=
  b.priority < a.priority ∨ (a.priority = b.priority ∧ a.regIndex ≤ b.regIndex)

instance : DecidableRel (@runsBefore π) := fun _a _b =>
  inferInstanceAs (Decidable (_ ∨ _))

instance : IsTotal (RegisteredHandler π) runsBefore where
  total a b := by
    rcases lt_trichotomy a.priority b.priority with h | h | h
    · exact Or.inr (Or.inl h)
    · rcases Nat.le_total a.regIndex b.regIndex with hr | hr
      · exact Or.inl (Or.inr ⟨h, hr⟩)
      · exact Or.inr (Or.inr ⟨h.symm, hr⟩)
    · exact Or.inl (Or.inl h)

instance : IsTrans (RegisteredHandler π) runsBefore where
  trans a b c hab hbc := by
    rcases hab with h1 | ⟨h1, h1r⟩ <;> rcases hbc with h2 | ⟨h2, h2r⟩
    · exact Or.inl (h2.trans h1)
    · exact Or.inl (h2 ▸ h1)
    · exact Or.inl (h1 ▸ h2)
    · exact Or.inr ⟨h1.trans h2, h1r.trans h2r⟩

/-- Modelled from the spec: `dispatch` selects all handlers subscribed to
the event kind and orders them by priority descending then registration
order. -/
def dispatchOrder (reg : List (RegisteredHandler π)) (k : EventKind) :
    List (RegisteredHandler π) :=
  List.insertionSort runsBefore (reg.filter fun h => decide (k ∈ h.events))

/-- Modelled from the spec: the dispatch chain invokes each selected handler
in turn, feeding each handler's returned payload to the next handler; a
typed failure aborts the chain.  The first component records the extension
identities actually invoked, in order. -/
def runHandlers : List (RegisteredHandler π) → π → List String × Except String π
  | [], p => ([], .ok p)
  | h :: rest, p =>
    match h.handler p with
    | .next p₂ => (h.extId :: (runHandlers rest p₂).1, (runHandlers rest p₂).2)
    | .fail e => ([h.extId], .error e)

/-- Modelled from the spec: `dispatch(kind, payload)` runs the ordered chain
of subscribed handlers over the payload. -/
def dispatch (reg : List (RegisteredHandler π)) (k : EventKind) (p : π) :
    List String × Except String π :=
  runHandlers (dispatchOrder reg k) p

/-- Registration preserves the strictly increasing registration-index
invariant assumed by the dispatch ordering theorem, so every registry built
by successive `register` calls from the empty registry satisfies it. -/
theorem register_preserves_order (reg : List (RegisteredHandler π))
    (ext : String) (prio : Int) (evs : List EventKind)
    (f : π → HookResult π) (reg₂ : List (RegisteredHandler π))
    (hlen : ∀ h ∈ reg, h.regIndex < reg.length)
    (hpw : reg.Pairwise fun a b => a.regIndex < b.regIndex)
    (hreg : register reg ext prio evs f = some reg₂) :
    (∀ h ∈ reg₂, h.regIndex < reg₂.length)
    ∧ reg₂.Pairwise fun a b => a.regIndex < b.regIndex := by
  unfold register at hreg
  split at hreg
  · exact absurd hreg (by simp)
  · have h2 : reg₂ = reg ++ [⟨ext, prio, evs, reg.length, f⟩] := by
      cases hreg
      rfl
    subst h2
    constructor
    · intro h hmem
      rw [List.mem_append] at hmem
      rcases hmem with hmem | hmem
      · have := hlen h hmem
        simp only [List.length_append, List.length_singleton]
        omega
      · simp only [List.mem_singleton] at hmem
        subst hmem
        simp
    · rw [List.pairwise_append]
      refine ⟨hpw, List.pairwise_singleton _ _, ?_⟩
      intro a ha b hb
      simp only [List.mem_singleton] at hb
      subst hb
      exact hlen a ha

/-- Handlers invoked by a successful chain are exactly the chain, in order. -/
theorem runHandlers_ok_ids (hs : List (RegisteredHandler π)) (p : π) (q : π)
    (h : (runHandlers hs p).2 = .ok q) :
    (runHandlers hs p).1 = hs.map RegisteredHandler.extId := by
  induction hs generalizing p with
  | nil => rfl
  | cons a rest ih =>
    simp only [runHandlers] at h ⊢
    cases ha : a.handler p with
    | next p₂ =>
      simp only [ha] at h ⊢
      simpa using ih p₂ h
    | fail e => simp [ha] at h

/-- A successful chain over an appended list splits into two chains. -/
theorem runHandlers_append (xs ys : List (RegisteredHandler π)) (p q : π)
    (h : runHandlers xs p = (xs.map RegisteredHandler.extId, .ok q)) :
    runHandlers (xs ++ ys) p =
      (xs.map RegisteredHandler.extId ++ (runHandlers ys q).1,
       (runHandlers ys q).2) := by
  induction xs generalizing p with
  | nil =>
    have hpq : p = q := by simpa [runHandlers] using h
    subst hpq
    simp [runHandlers]
  | cons a rest ih =>
    cases ha : a.handler p with
    | next p₂ =>
      simp only [runHandlers, ha, List.map_cons, Prod.mk.injEq,
        List.cons.injEq] at h
      have h1 : (runHandlers rest p₂).1 = rest.map RegisteredHandler.extId :=
        h.1.2
      have h2 : (runHandlers rest p₂).2 = .ok q := h.2
      have hrec := ih p₂ (Prod.ext h1 h2)
      simp only [List.cons_append, runHandlers, ha, List.append_eq, hrec,
        List.map_cons]
    | fail e =>
      simp only [runHandlers, ha, Prod.mk.injEq] at h
      exact absurd h.2 (by simp)

/-- C1: for every registry whose registration indexes strictly increase and
every event kind, the dispatch order contains exactly the handlers
subscribed to that kind; consecutive handlers are strictly ordered by
descending priority with ties broken by registration order; a failure-free
dispatch invokes exactly that ordered list; and the order is identical for
identical registration sequences. -/
theorem dispatch_order_correct (π : Type) (reg : List (RegisteredHandler π))
    (k : EventKind)
    (hreg : reg.Pairwise fun a b => a.regIndex < b.regIndex) :
    (∀ h, h ∈ dispatchOrder reg k ↔ h ∈ reg ∧ k ∈ h.events)
    ∧ (dispatchOrder reg k).Pairwise
        (fun a b => b.priority < a.priority ∨
          (a.priority = b.priority ∧ a.regIndex < b.regIndex))
    ∧ (∀ p q, (dispatch reg k p).2 = .ok q →
        (dispatch reg k p).1 = (dispatchOrder reg k).map RegisteredHandler.extId)
    ∧ (∀ reg₂, reg₂ = reg → dispatchOrder reg₂ k = dispatchOrder reg k) := by
  refine ⟨?_, ?_, ?_, ?_⟩
  · intro h
    unfold dispatchOrder
    rw [List.mem_insertionSort, List.mem_filter]
    simp
  · have hsorted : List.Sorted runsBefore (dispatchOrder reg k) :=
      List.sorted_insertionSort runsBefore _
    have hperm : List.Perm (dispatchOrder reg k)
        (reg.filter fun h => decide (k ∈ h.events)) :=
      List.perm_insertionSort runsBefore _
    have hsub : (reg.filter fun h => decide (k ∈ h.events)).Pairwise
        (fun a b => a.regIndex < b.regIndex) :=
      List.Pairwise.sublist (List.filter_sublist reg) hreg
    have hmapf : ((reg.filter fun h => decide (k ∈ h.events)).map
        RegisteredHandler.regIndex).Pairwise (· < ·) :=
      List.pairwise_map.mpr hsub
    have hnodupf : ((reg.filter fun h => decide (k ∈ h.events)).map
        RegisteredHandler.regIndex).Nodup :=
      hmapf.imp fun hlt => Nat.ne_of_lt hlt
    have hnodup : ((dispatchOrder reg k).map RegisteredHandler.regIndex).Nodup :=
      (hperm.map RegisteredHandler.regIndex).nodup_iff.mpr hnodupf
    have hne : (dispatchOrder reg k).Pairwise
        (fun a b => a.regIndex ≠ b.regIndex) :=
      List.pairwise_map.mp hnodup
    have hand := hsorted.and hne
    refine hand.imp ?_
    rintro a b ⟨hab, hneq⟩
    rcases hab with h1 | ⟨h1, h1r⟩
    · exact Or.inl h1
    · exact Or.inr ⟨h1, lt_of_le_of_ne h1r hneq⟩
  · intro p q h
    exact runHandlers_ok_ids _ p q h
  · intro reg₂ h
    rw [h]

/-- Witness for C1 on a concrete three-handler registry. -/
theorem dispatch_order_correct_witness :
    let h1 : RegisteredHandler Nat := ⟨"security", 90, [.toolBeforeExecute], 0, .next⟩
    let h2 : RegisteredHandler Nat := ⟨"caching", 50, [.toolBeforeExecute, .agentBeforeRun], 1, .next⟩
    let h3 : RegisteredHandler Nat := ⟨"logging", 50, [.toolBeforeExecute], 2, .next⟩
    (∀ h, h ∈ dispatchOrder [h1, h2, h3] .toolBeforeExecute ↔
      h ∈ [h1, h2, h3] ∧ EventKind.toolBeforeExecute ∈ h.events)
    ∧ (dispatchOrder [h1, h2, h3] .toolBeforeExecute).Pairwise
        (fun a b => b.priority < a.priority ∨
          (a.priority = b.priority ∧ a.regIndex < b.regIndex)) := by
  intro h1 h2 h3
  have := dispatch_order_correct Nat [h1, h2, h3] .toolBeforeExecute
    (by simp [h1, h2, h3])
  exact ⟨this.1, this.2.1⟩

/-- Modelled from the spec: a ToolCallRequest with call identifier, tool
name and argument map, produced by the model response parser. -/
structure ToolCallRequest where
  callId : String
  toolName : String
  params : List (String × Value)
deriving DecidableEq

/-- Modelled from the spec: a tool with a name, the required parameter
names of its declared schema, and a fallible body; the built-in tool
implementations are not in the repository sources. -/
structure ToolDef where
  name : String
  requiredParams : List String
  execute : List (String × Value) → Except String Value

/-- Modelled from the spec: the structured payload-or-error of a tool call
result (section 7 error taxonomy). -/
inductive ToolOutcome where
  | ok (v : Value)
  | unknownTool
  | invalidArguments (missing : List String)
  | toolExecutionFailed (e : String)
  | handlerError (e : String)
deriving DecidableEq

/-- Modelled from the spec: a ToolCallResult with call identifier, success
flag and structured payload or error description. -/
structure ToolCallResult where
  callId : String
  success : Bool
  payload : ToolOutcome
deriving DecidableEq

/-- Modelled from the spec: a handler failure escalates to the nearest
enclosing lifecycle error event: tool events escalate to tool error, all
other events to agent error. -/
def escalationTarget : EventKind → EventKind
  | .toolBeforeExecute => .toolError
  | .toolAfterExecute => .toolError
  | .toolError => .toolError
  | _ => .agentError

/-- Modelled from the spec: schema validation collects the required
parameter names absent from the argument map. -/
def missingParams (t : ToolDef) (params : List (String × Value)) : List String :=
  t.requiredParams.filter fun r => !((params.map Prod.fst).contains r)

/-- Modelled from the spec: the trace of one tool invocation: the result
events fired into the hook pipeline, whether the tool body actually ran,
and the structured result. -/
structure InvokeTrace where
  fired : List (EventKind × ToolOutcome)
  executed : Bool
  result : ToolCallResult
deriving DecidableEq

/-- Modelled from the spec: the Tool Invoker `invoke(name, args)`: look the
tool up by name, validate required arguments, dispatch tool before-execute
hooks (whose final payload may short-circuit execution with a supplied
result), execute the tool body, and wrap every failure into a structured
result instead of propagating it. -/
def invokeTool (reg : List (RegisteredHandler ToolPayload))
    (tools : List ToolDef) (req : ToolCallRequest) : InvokeTrace :=
  match tools.find? (fun t => t.name == req.toolName) with
  | none =>
    { fired := [(.toolError, .unknownTool)], executed := false,
      result := ⟨req.callId, false, .unknownTool⟩ }
  | some t =>
    match missingParams t req.params with
    | m :: ms =>
      { fired := [(.toolError, .invalidArguments (m :: ms))], executed := false,
        result := ⟨req.callId, false, .invalidArguments (m :: ms)⟩ }
    | [] =>
      match (dispatch reg .toolBeforeExecute ⟨req.toolName, req.params, false, none⟩).2 with
      | .error e =>
        { fired := [(escalationTarget .toolBeforeExecute, .handlerError e)],
          executed := false,
          result := ⟨req.callId, false, .handlerError e⟩ }
      | .ok p =>
        if p.useCachedResult then
          { fired := [(.toolAfterExecute, .ok (p.cachedResult.getD .vnull))],
            executed := false,
            result := ⟨req.callId, true, .ok (p.cachedResult.getD .vnull)⟩ }
        else
          match t.execute p.params with
          | .ok v =>
            { fired := [(.toolAfterExecute, .ok v)], executed := true,
              result := ⟨req.callId, true, .ok v⟩ }
          | .error e =>
            { fired := [(.toolError, .toolExecutionFailed e)], executed := true,
              result := ⟨req.callId, false, .toolExecutionFailed e⟩ }

/-- Replace a tool's body, keeping its name and schema. -/
def withExec (t : ToolDef) (f : List (String × Value) → Except String Value) :
    ToolDef :=
  ⟨t.name, t.requiredParams, f⟩

/-- Modelled from the spec: independent invocations (for example from
unrelated runs) are processed independently of one another. -/
def invokeMany (reg : List (RegisteredHandler ToolPayload))
    (tools : List ToolDef) (reqs : List ToolCallRequest) : List InvokeTrace :=
  reqs.map (invokeTool reg tools)

/-- C7: when the before-execute hook chain returns a payload flagged to
short-circuit with a supplied result, the invoker skips actual tool
execution, uses the supplied result as the tool call's result, fires the
after-execute event with that result, and the trace is independent of the
tool body. -/
theorem before_execute_short_circuit
    (reg : List (RegisteredHandler ToolPayload)) (t : ToolDef)
    (req : ToolCallRequest) (p : ToolPayload) (r : Value)
    (hname : t.name = req.toolName)
    (hmiss : missingParams t req.params = [])
    (hdisp : (dispatch reg .toolBeforeExecute
        ⟨req.toolName, req.params, false, none⟩).2 = .ok p)
    (hflag : p.useCachedResult = true)
    (hres : p.cachedResult = some r) :
    invokeTool reg [t] req =
      { fired := [(.toolAfterExecute, .ok r)], executed := false,
        result := ⟨req.callId, true, .ok r⟩ }
    ∧ (∀ f, invokeTool reg [withExec t f] req = invokeTool reg [t] req) := by
  have hfind : ([t].find? fun u => u.name == req.toolName) = some t := by
    simp [List.find?, hname]
  have hmain : invokeTool reg [t] req =
      { fired := [(.toolAfterExecute, .ok r)], executed := false,
        result := ⟨req.callId, true, .ok r⟩ } := by
    simp [invokeTool, hfind, hmiss, hdisp, hflag, hres]
  refine ⟨hmain, ?_⟩
  intro f
  have hfind₂ : ([withExec t f].find? fun u => u.name == req.toolName) =
      some (withExec t f) := by
    simp [List.find?, withExec, hname]
  have hmiss₂ : missingParams (withExec t f) req.params = [] := by
    simpa [missingParams, withExec] using hmiss
  have : invokeTool reg [withExec t f] req =
      { fired := [(.toolAfterExecute, .ok r)], executed := false,
        result := ⟨req.callId, true, .ok r⟩ } := by
    simp [invokeTool, hfind₂, hmiss₂, hdisp, hflag, hres]
  rw [this, hmain]

/-- Witness for C7: a caching handler short-circuits a concrete tool whose
body would return a different value. -/
theorem before_execute_short_circuit_witness :
    let cacher : RegisteredHandler ToolPayload :=
      ⟨"caching", 50, [.toolBeforeExecute], 0,
        fun p => .next ⟨p.toolName, p.params, true, some (.vstr "cached")⟩⟩
    let t : ToolDef := ⟨"web_search", [], fun _ => .ok (.vstr "fresh")⟩
    let req : ToolCallRequest := ⟨"call1", "web_search", []⟩
    invokeTool [cacher] [t] req =
      { fired := [(.toolAfterExecute, .ok (.vstr "cached"))], executed := false,
        result := ⟨"call1", true, .ok (.vstr "cached")⟩ } := by
  intro cacher t req
  exact (before_execute_short_circuit [cacher] t req
    ⟨"web_search", [], true, some (.vstr "cached")⟩ (.vstr "cached")
    rfl rfl rfl rfl rfl).1

/-- C8: when a hook handler raises a typed failure, dispatch for that event
aborts: the handlers invoked are exactly those before the failing one plus
the failing one, none after it; the invoker surfaces the failure as a
structured handler-error result and fires the nearest enclosing lifecycle
error event (tool error for tool events) instead of crashing; and every
other invocation in a batch is unaffected, equal to invoking it alone. -/
theorem handler_failure_aborts_dispatch
    (reg : List (RegisteredHandler ToolPayload)) (t : ToolDef)
    (req : ToolCallRequest)
    (pre post : List (RegisteredHandler ToolPayload))
    (h : RegisteredHandler ToolPayload) (q : ToolPayload) (e : String)
    (hname : t.name = req.toolName)
    (hmiss : missingParams t req.params = [])
    (horder : dispatchOrder reg .toolBeforeExecute = pre ++ h :: post)
    (hpre : runHandlers pre ⟨req.toolName, req.params, false, none⟩ =
      (pre.map RegisteredHandler.extId, .ok q))
    (hfail : h.handler q = .fail e) :
    dispatch reg .toolBeforeExecute ⟨req.toolName, req.params, false, none⟩ =
      (pre.map RegisteredHandler.extId ++ [h.extId], .error e)
    ∧ invokeTool reg [t] req =
      { fired := [(escalationTarget .toolBeforeExecute, .handlerError e)],
        executed := false,
        result := ⟨req.callId, false, .handlerError e⟩ }
    ∧ escalationTarget .toolBeforeExecute = .toolError
    ∧ (∀ tools reqs i, (invokeMany reg tools reqs).get? i =
        (reqs.get? i).map (invokeTool reg tools)) := by
  have habort : dispatch reg .toolBeforeExecute
      ⟨req.toolName, req.params, false, none⟩ =
      (pre.map RegisteredHandler.extId ++ [h.extId], .error e) := by
    unfold dispatch
    rw [horder]
    rw [runHandlers_append pre (h :: post) _ q hpre]
    simp [runHandlers, hfail]
  refine ⟨habort, ?_, rfl, ?_⟩
  · have hfind : ([t].find? fun u => u.name == req.toolName) = some t := by
      simp [List.find?, hname]
    have hdisp : (dispatch reg .toolBeforeExecute
        ⟨req.toolName, req.params, false, none⟩).2 = .error e := by
      rw [habort]
    simp [invokeTool, hfind, hmiss, hdisp]
  · intro tools reqs i
    simp [invokeMany]

/-- Witness for C8: a security handler that blocks a tool aborts the
dispatch before a lower-priority logging handler runs. -/
theorem handler_failure_aborts_dispatch_witness :
    let guard : RegisteredHandler ToolPayload :=
      ⟨"security", 90, [.toolBeforeExecute], 0,
        fun _ => .fail "Tool web_search is not authorized"⟩
    let logger : RegisteredHandler ToolPayload :=
      ⟨"logging", 10, [.toolBeforeExecute], 1, .next⟩
    let t : ToolDef := ⟨"web_search", [], fun _ => .ok (.vstr "fresh")⟩
    let req : ToolCallRequest := ⟨"call1", "web_search", []⟩
    dispatch [guard, logger] .toolBeforeExecute ⟨"web_search", [], false, none⟩ =
      (["security"], .error "Tool web_search is not authorized")
    ∧ invokeTool [guard, logger] [t] req =
      { fired := [(.toolError, .handlerError "Tool web_search is not authorized")],
        executed := false,
        result := ⟨"call1", false, .handlerError "Tool web_search is not authorized"⟩ } := by
  intro guard logger t req
  have := handler_failure_aborts_dispatch [guard, logger] t req
    [] [logger] guard ⟨"web_search", [], false, none⟩
    "Tool web_search is not authorized" rfl rfl rfl rfl rfl
  exact ⟨this.1, this.2.1⟩

/-- Modelled from the spec: message roles of the Conversation. -/
inductive Role where
  | system
  | user
  | assistant
  | tool
deriving DecidableEq

/-- Modelled from the spec: a Message with role, content, optional
tool-call descriptor (assistant messages) and optional tool-call identifier
(tool-result messages). -/
structure Message where
  role : Role
  content : String
  toolCalls : List ToolCallRequest
  toolCallId : Option String
deriving DecidableEq

/-- Modelled from the spec: the Conversation is an ordered message list,
mutated only by appending. -/
abbrev Conversation := List Message

/-- Modelled from the spec: a model response either carries a final answer
or one or more tool-call requests. -/
inductive ModelResponse where
  | final (content : String)
  | toolCalls (calls : List ToolCallRequest)

/-- Modelled from the spec: the model client boundary: a deterministic stub
mapping a conversation to a completion or a typed provider failure. -/
abbrev ModelClient := Conversation → Except String ModelResponse

/-- Modelled from the spec: agent configuration fields consumed by the
engine. -/
structure AgentConfig where
  name : String
  role : String
  description : String
  objective : String
  model : String
deriving DecidableEq

/-- Modelled from the spec: the system prompt is derived from the
role/description/objective configuration. -/
def systemPrompt (c : AgentConfig) : String :=
  "Role: " ++ c.role ++ ". Description: " ++ c.description ++
    ". Objective: " ++ c.objective

/-- Modelled from the spec: the Init state seeds the Conversation with the
derived system prompt and the user input. -/
def initConv (c : AgentConfig) (input : String) : Conversation :=
  [⟨.system, systemPrompt c, [], none⟩, ⟨.user, input, [], none⟩]

/-- Render a tool outcome as tool-message content. -/
def toolOutcomeText : ToolOutcome → String
  | .ok (.vstr s) => s
  | .ok (.vnum n) => toString n
  | .ok .vnull => "null"
  | .unknownTool => "Tool not found"
  | .invalidArguments ms => "Invalid arguments: " ++ String.intercalate ", " ms
  | .toolExecutionFailed e => "Tool execution failed: " ++ e
  | .handlerError e => "Handler error: " ++ e

/-- Modelled from the spec: a ToolCallResult is appended to the
Conversation as a tool-role message carrying the call identifier. -/
def toolResultMsg (r : ToolCallResult) : Message :=
  ⟨.tool, toolOutcomeText r.payload, [], some r.callId⟩

/-- Modelled from the spec: the assistant message carrying the model's
tool-call requests. -/
def assistantToolMsg (calls : List ToolCallRequest) : Message :=
  ⟨.assistant, "", calls, none⟩

/-- Modelled from the spec: the assistant message carrying a final answer. -/
def assistantMsg (s : String) : Message :=
  ⟨.assistant, s, [], none⟩

/-- Modelled from the spec: the ExecutingTools state invokes each requested
tool call sequentially in the order the model emitted them, appending each
result to the Conversation as a tool message before the next call. -/
def execToolCalls (reg : List (RegisteredHandler ToolPayload))
    (tools : List ToolDef) :
    Conversation → List ToolCallResult → List ToolCallRequest →
      Conversation × List ToolCallResult
  | conv, acc, [] => (conv, acc)
  | conv, acc, c :: rest =>
    execToolCalls reg tools
      (conv ++ [toolResultMsg ((invokeTool reg tools c).result)])
      (acc ++ [(invokeTool reg tools c).result]) rest

/-- Modelled from the spec: terminal states of the Conversation Loop that
still produce a RunResult. -/
inductive LoopState where
  | done
  | turnLimitExceeded
deriving DecidableEq

/-- Modelled from the spec: a RunResult with final output text, the ordered
tool-call results, the final conversation, an explicit completeness marker
and the terminal state reached. -/
structure RunResult where
  output : String
  toolResults : List ToolCallResult
  conv : Conversation
  complete : Bool
  termState : LoopState
deriving DecidableEq

/-- Modelled from the spec: a run terminates with either a RunResult
(possibly marked incomplete) or a typed provider failure, never an
unhandled crash. -/
inductive RunOutcome where
  | finished (r : RunResult)
  | providerError (e : String)
deriving DecidableEq

/-- Partial output at the turn limit: the content of the most recent
assistant message, if any. -/
def lastOutput (conv : Conversation) : String :=
  match conv.reverse.find? (fun m => decide (m.role = .assistant)) with
  | some m => m.content
  | none => ""

/-- Modelled from the spec: the Conversation Loop.  Each remaining-turn
step sends the conversation to the model client; a provider failure ends
the run in error, a final answer ends it in Done, and tool-call requests
append the assistant tool-call message plus each tool result before
looping back; exhausting the turn budget ends in TurnLimitExceeded with an
incomplete RunResult. -/
def runLoop (reg : List (RegisteredHandler ToolPayload))
    (tools : List ToolDef) (client : ModelClient) :
    Nat → Conversation → List ToolCallResult → RunOutcome
  | 0, conv, acc =>
    .finished ⟨lastOutput conv, acc, conv, false, .turnLimitExceeded⟩
  | fuel + 1, conv, acc =>
    match client conv with
    | .error e => .providerError e
    | .ok (.final s) =>
      .finished ⟨s, acc, conv ++ [assistantMsg s], true, .done⟩
    | .ok (.toolCalls calls) =>
      runLoop reg tools client fuel
        (execToolCalls reg tools (conv ++ [assistantToolMsg calls]) acc calls).1
        (execToolCalls reg tools (conv ++ [assistantToolMsg calls]) acc calls).2

/-- Modelled from the spec: an Agent owns its configuration, tools, hook
registry and an optional language-model provider. -/
structure Agent where
  config : AgentConfig
  tools : List ToolDef
  hooks : List (RegisteredHandler ToolPayload)
  llmProvider : Option ModelClient

/-- Modelled from the spec: `setLLMProvider` installs a language-model
provider on the agent. -/
def setLLMProvider (a : Agent) (p : ModelClient) : Agent :=
  ⟨a.config, a.tools, a.hooks, some p⟩

/-- Modelled from the spec: run options with the maximum turn count. -/
structure AgentRunOptions where
  maxTurns : Nat
deriving DecidableEq

/-- Modelled from the spec: the outcome of `Agent.run`: a typed
no-LLM-provider error, a typed provider failure, or a RunResult. -/
inductive AgentRunOutcome where
  | noProvider
  | providerError (e : String)
  | finished (r : RunResult)
deriving DecidableEq

/-- Modelled from the spec: `Agent.run` fails with a typed error when no
LLM provider is set, otherwise drives the Conversation Loop from the seeded
conversation under the configured turn budget. -/
def agentRun (a : Agent) (input : String) (opts : AgentRunOptions) :
    AgentRunOutcome :=
  match a.llmProvider with
  | none => .noProvider
  | some client =>
    match runLoop a.hooks a.tools client opts.maxTurns
        (initConv a.config input) [] with
    | .finished r => .finished r
    | .providerError e => .providerError e

/-- Sequential tool execution equals mapping the invoker over the requests
in emission order, appending conversation messages and results in that same
order. -/
theorem execToolCalls_eq (reg : List (RegisteredHandler ToolPayload))
    (tools : List ToolDef) (calls : List ToolCallRequest)
    (conv : Conversation) (acc : List ToolCallResult) :
    execToolCalls reg tools conv acc calls =
      (conv ++ calls.map (fun c => toolResultMsg ((invokeTool reg tools c).result)),
       acc ++ calls.map (fun c => (invokeTool reg tools c).result)) := by
  induction calls generalizing conv acc with
  | nil => simp [execToolCalls]
  | cons c rest ih =>
    simp only [execToolCalls, ih, List.map_cons, List.append_assoc,
      List.singleton_append]

/-- C4: a tool call whose body raises an internal failure yields a
ToolExecutionFailed result; the executing-tools step appends it to the
Conversation as a tool-role message; and the loop proceeds to the next
awaiting-model step with that degraded message rather than aborting the
run. -/
theorem tool_failure_wrapped (reg : List (RegisteredHandler ToolPayload))
    (tools : List ToolDef) (req : ToolCallRequest) (t : ToolDef)
    (p : ToolPayload) (e : String)
    (hfind : tools.find? (fun u => u.name == req.toolName) = some t)
    (hmiss : missingParams t req.params = [])
    (hdisp : (dispatch reg .toolBeforeExecute
        ⟨req.toolName, req.params, false, none⟩).2 = .ok p)
    (hflag : p.useCachedResult = false)
    (hexec : t.execute p.params = .error e) :
    (invokeTool reg tools req).result =
      ⟨req.callId, false, .toolExecutionFailed e⟩
    ∧ (∀ conv acc, execToolCalls reg tools conv acc [req] =
        (conv ++ [toolResultMsg ⟨req.callId, false, .toolExecutionFailed e⟩],
         acc ++ [⟨req.callId, false, .toolExecutionFailed e⟩]))
    ∧ (∀ (client : ModelClient) fuel conv acc,
        client conv = .ok (.toolCalls [req]) →
        runLoop reg tools client (fuel + 1) conv acc =
          runLoop reg tools client fuel
            (conv ++ [assistantToolMsg [req],
              toolResultMsg ⟨req.callId, false, .toolExecutionFailed e⟩])
            (acc ++ [⟨req.callId, false, .toolExecutionFailed e⟩])) := by
  have hres : (invokeTool reg tools req).result =
      ⟨req.callId, false, .toolExecutionFailed e⟩ := by
    simp [invokeTool, hfind, hmiss, hdisp, hflag, hexec]
  have hstep : ∀ conv acc, execToolCalls reg tools conv acc [req] =
      (conv ++ [toolResultMsg ⟨req.callId, false, .toolExecutionFailed e⟩],
       acc ++ [⟨req.callId, false, .toolExecutionFailed e⟩]) := by
    intro conv acc
    rw [execToolCalls_eq]
    simp [hres]
  refine ⟨hres, hstep, ?_⟩
  intro client fuel conv acc hclient
  simp only [runLoop, hclient, hstep]
  rw [List.append_assoc]
  simp

/-- Witness for C4 with a concrete failing tool body. -/
theorem tool_failure_wrapped_witness :
    let t : ToolDef := ⟨"web_search", [], fun _ => .error "Network timeout"⟩
    let req : ToolCallRequest := ⟨"call1", "web_search", []⟩
    (invokeTool [] [t] req).result =
      ⟨"call1", false, .toolExecutionFailed "Network timeout"⟩
    ∧ execToolCalls [] [t] [] [] [req] =
      ([toolResultMsg ⟨"call1", false, .toolExecutionFailed "Network timeout"⟩],
       [⟨"call1", false, .toolExecutionFailed "Network timeout"⟩]) := by
  intro t req
  have := tool_failure_wrapped [] [t] req t
    ⟨"web_search", [], false, none⟩ "Network timeout" rfl rfl rfl rfl rfl
  exact ⟨this.1, by simpa using this.2.1 [] []⟩

/-- A model client that keeps requesting tool calls drives the loop to the
turn limit, producing an incomplete RunResult. -/
theorem runLoop_turn_limit (reg : List (RegisteredHandler ToolPayload))
    (tools : List ToolDef) (client : ModelClient)
    (hclient : ∀ conv, ∃ calls, client conv = .ok (.toolCalls calls)) :
    ∀ fuel conv acc, ∃ r,
      runLoop reg tools client fuel conv acc = .finished r
      ∧ r.complete = false ∧ r.termState = .turnLimitExceeded
      ∧ r.output = lastOutput r.conv := by
  intro fuel
  induction fuel with
  | zero =>
    intro conv acc
    exact ⟨⟨lastOutput conv, acc, conv, false, .turnLimitExceeded⟩,
      rfl, rfl, rfl, rfl⟩
  | succ n ih =>
    intro conv acc
    obtain ⟨calls, hc⟩ := hclient conv
    simp only [runLoop, hc]
    exact ih _ _

/-- C5: a run whose turn count reaches the configured maximum terminates in
the TurnLimitExceeded state with a RunResult that carries the partial
output and an explicit incompleteness marker, and never by throwing (the
outcome is a finished result, not a failure). -/
theorem turn_limit_incomplete_result (a : Agent) (input : String)
    (opts : AgentRunOptions) (client : ModelClient)
    (hprov : a.llmProvider = some client)
    (hclient : ∀ conv, ∃ calls, client conv = .ok (.toolCalls calls)) :
    ∃ r, agentRun a input opts = .finished r
      ∧ r.complete = false ∧ r.termState = .turnLimitExceeded
      ∧ r.output = lastOutput r.conv := by
  obtain ⟨r, h1, h2, h3, h4⟩ := runLoop_turn_limit a.hooks a.tools client
    hclient opts.maxTurns (initConv a.config input) []
  exact ⟨r, by simp [agentRun, hprov, h1], h2, h3, h4⟩

/-- Witness for C5: a two-turn budget exhausted by a model stub that always
requests the same tool call. -/
theorem turn_limit_incomplete_result_witness :
    let t : ToolDef := ⟨"calc", [], fun _ => .ok (.vnum 4)⟩
    let client : ModelClient := fun _ => .ok (.toolCalls [⟨"c1", "calc", []⟩])
    let a : Agent := ⟨⟨"A", "r", "d", "o", "m"⟩, [t], [], some client⟩
    ∃ r, agentRun a "2+2?" ⟨2⟩ = .finished r
      ∧ r.complete = false ∧ r.termState = .turnLimitExceeded
      ∧ r.output = lastOutput r.conv := by
  intro t client a
  exact turn_limit_incomplete_result a "2+2?" ⟨2⟩ client rfl
    (fun _ => ⟨[⟨"c1", "calc", []⟩], rfl⟩)

/-- C10: an agent constructed without a language-model provider fails with
the typed no-provider error and produces no RunResult; after
`setLLMProvider`, a run on the same agent no longer fails for that
reason. -/
theorem run_requires_provider (a : Agent) (input : String)
    (opts : AgentRunOptions) (hnone : a.llmProvider = none) :
    agentRun a input opts = .noProvider
    ∧ (∀ r, agentRun a input opts ≠ .finished r)
    ∧ (∀ p, agentRun (setLLMProvider a p) input opts ≠ .noProvider) := by
  have h1 : agentRun a input opts = .noProvider := by
    simp [agentRun, hnone]
  refine ⟨h1, ?_, ?_⟩
  · intro r h
    rw [h1] at h
    exact AgentRunOutcome.noConfusion h
  · intro p
    cases h : runLoop a.hooks a.tools p opts.maxTurns
        (initConv a.config input) [] with
    | finished r => simp [agentRun, setLLMProvider, h]
    | providerError e => simp [agentRun, setLLMProvider, h]

/-- Witness for C10 on a concrete provider-less agent. -/
theorem run_requires_provider_witness :
    let a : Agent := ⟨⟨"A", "r", "d", "o", "m"⟩, [], [], none⟩
    agentRun a "Hello" ⟨3⟩ = .noProvider
    ∧ (∀ p, agentRun (setLLMProvider a p) "Hello" ⟨3⟩ ≠ .noProvider) := by
  intro a
  have := run_requires_provider a "Hello" ⟨3⟩ rfl
  exact ⟨this.1, this.2.2⟩

/-- Every branch of the invoker preserves the request's call identifier in
the result. -/
theorem invoke_callId (reg : List (RegisteredHandler ToolPayload))
    (tools : List ToolDef) (c : ToolCallRequest) :
    ((invokeTool reg tools c).result).callId = c.callId := by
  unfold invokeTool
  repeat' split
  all_goals rfl

/-- Tool-call requests of the assistant messages of a conversation, in
order. -/
def assistantCalls : Conversation → List ToolCallRequest
  | [] => []
  | m :: rest =>
    (if m.role = .assistant then m.toolCalls else []) ++ assistantCalls rest

/-- Conversation well-formedness relative to the tool calls already
requested: every tool-role message refers to a tool call requested by an
earlier assistant message. -/
def wfFrom : List ToolCallRequest → Conversation → Prop
  | _, [] => True
  | seen, m :: rest =>
    (m.role = .tool → ∃ c ∈ seen, m.toolCallId = some c.callId)
    ∧ wfFrom (seen ++ (if m.role = .assistant then m.toolCalls else [])) rest

/-- Modelled from the spec: a Conversation never contains a tool-result
message without a preceding matching tool-call message. -/
def wfConv (conv : Conversation) : Prop := wfFrom [] conv

/-- Well-formedness of an appended conversation splits at the boundary. -/
theorem wfFrom_append (xs ys : Conversation) :
    ∀ seen, wfFrom seen (xs ++ ys) ↔
      wfFrom seen xs ∧ wfFrom (seen ++ assistantCalls xs) ys := by
  induction xs with
  | nil => intro seen; simp [wfFrom, assistantCalls]
  | cons m rest ih =>
    intro seen
    simp only [List.cons_append, wfFrom, assistantCalls, List.append_eq, ih,
      List.append_assoc, and_assoc]

/-- A block of tool-result messages for requests drawn from the seen set is
well formed. -/
theorem wfFrom_results (reg : List (RegisteredHandler ToolPayload))
    (tools : List ToolDef) (calls : List ToolCallRequest) :
    ∀ seen, (∀ c ∈ calls, c ∈ seen) →
      wfFrom seen
        (calls.map fun c => toolResultMsg ((invokeTool reg tools c).result)) := by
  induction calls with
  | nil => intro seen _; trivial
  | cons c rest ih =>
    intro seen hsub
    refine ⟨?_, ?_⟩
    · intro _
      exact ⟨c, hsub c (by simp), by simp [toolResultMsg, invoke_callId]⟩
    · have : (if (toolResultMsg ((invokeTool reg tools c).result)).role
          = Role.assistant
          then (toolResultMsg ((invokeTool reg tools c).result)).toolCalls
          else []) = [] := by
        simp [toolResultMsg]
      rw [this, List.append_nil]
      exact ih seen fun d hd => hsub d (by simp [hd])

/-- The conversation loop preserves conversation well-formedness into any
finished result. -/
theorem runLoop_wf (reg : List (RegisteredHandler ToolPayload))
    (tools : List ToolDef) (client : ModelClient) :
    ∀ fuel conv acc, wfConv conv →
      ∀ r, runLoop reg tools client fuel conv acc = .finished r →
        wfConv r.conv := by
  intro fuel
  induction fuel with
  | zero =>
    intro conv acc hwf r h
    cases h
    exact hwf
  | succ n ih =>
    intro conv acc hwf r h
    rw [runLoop] at h
    cases hc : client conv with
    | error e => rw [hc] at h; exact absurd h (by simp)
    | ok resp =>
      rw [hc] at h
      cases resp with
      | final s =>
        cases h
        refine (wfFrom_append conv [assistantMsg s] []).mpr ⟨hwf, ?_, trivial⟩
        intro habs
        exact absurd habs (by simp [assistantMsg])
      | toolCalls calls =>
        refine ih _ _ ?_ r h
        rw [execToolCalls_eq, List.append_assoc, List.singleton_append]
        refine (wfFrom_append conv _ []).mpr ⟨hwf, ?_, ?_⟩
        · intro habs
          exact absurd habs (by simp [assistantToolMsg])
        · have hif : (if (assistantToolMsg calls).role = Role.assistant
              then (assistantToolMsg calls).toolCalls else []) = calls := by
            simp [assistantToolMsg]
          rw [hif]
          exact wfFrom_results reg tools calls _ fun c hc => by simp [hc]

/-- The seeded conversation is well formed. -/
theorem initConv_wf (c : AgentConfig) (input : String) :
    wfConv (initConv c input) := by
  refine ⟨?_, ?_, trivial⟩ <;> intro habs <;> exact absurd habs (by simp)

/-- Well-formedness is inherited by every prefix of a conversation. -/
theorem wfConv_take (conv : Conversation) (h : wfConv conv) (n : Nat) :
    wfConv (conv.take n) := by
  have := (wfFrom_append (conv.take n) (conv.drop n) []).mp
  rw [List.take_append_drop] at this
  exact (this h).1

/-- C6: tool calls requested by the model in one turn are executed strictly
sequentially in emission order, their results are appended to the
Conversation in that same order before the next model call, and at every
point (every prefix of any finished run's conversation) no tool-result
message appears without a preceding matching tool-call message. -/
theorem sequential_tool_results_wf :
    (∀ reg tools calls conv acc, execToolCalls reg tools conv acc calls =
      (conv ++ calls.map (fun c => toolResultMsg ((invokeTool reg tools c).result)),
       acc ++ calls.map (fun c => (invokeTool reg tools c).result)))
    ∧ (∀ (a : Agent) input opts res,
        agentRun a input opts = .finished res →
        ∀ n, wfConv (res.conv.take n)) := by
  refine ⟨fun reg tools calls conv acc => execToolCalls_eq reg tools calls conv acc, ?_⟩
  intro a input opts res h n
  unfold agentRun at h
  cases hp : a.llmProvider with
  | none => simp only [hp] at h; exact absurd h (by simp)
  | some client =>
    simp only [hp] at h
    cases hr : runLoop a.hooks a.tools client opts.maxTurns
        (initConv a.config input) [] with
    | providerError e => simp only [hr] at h; exact absurd h (by simp)
    | finished r =>
      simp only [hr] at h
      have hres : r = res := by
        cases h
        rfl
      have := runLoop_wf a.hooks a.tools client opts.maxTurns
        (initConv a.config input) [] (initConv_wf a.config input) r hr
      exact wfConv_take res.conv (hres ▸ this) n

/-- Witness for C6: a run in which the model emits two tool calls in one
turn, checked on the finished conversation. -/
theorem sequential_tool_results_wf_witness :
    let t : ToolDef := ⟨"calc", [], fun _ => .ok (.vnum 4)⟩
    let client : ModelClient := fun conv =>
      if conv.length ≤ 2
      then .ok (.toolCalls [⟨"c1", "calc", []⟩, ⟨"c2", "calc", []⟩])
      else .ok (.final "done")
    let a : Agent := ⟨⟨"A", "r", "d", "o", "m"⟩, [t], [], some client⟩
    execToolCalls [] [t] [] [] [⟨"c1", "calc", []⟩, ⟨"c2", "calc", []⟩] =
      ([toolResultMsg ⟨"c1", true, .ok (.vnum 4)⟩,
        toolResultMsg ⟨"c2", true, .ok (.vnum 4)⟩],
       [⟨"c1", true, .ok (.vnum 4)⟩, ⟨"c2", true, .ok (.vnum 4)⟩])
    ∧ ∀ res, agentRun a "2+2?" ⟨3⟩ = .finished res → wfConv (res.conv.take 4) := by
  intro t client a
  refine ⟨?_, fun res h => (sequential_tool_results_wf).2 a "2+2?" ⟨3⟩ res h 4⟩
  have := (sequential_tool_results_wf).1 [] [t] [⟨"c1", "calc", []⟩, ⟨"c2", "calc", []⟩] [] []
  rw [this]
  rfl

/-- Modelled from the spec: a bucket's configured capacity and refill rate
in tokens per second; the rate-limiter implementation is not in the
repository sources. -/
structure BucketConfig where
  capacity : ℚ
  refillRate : ℚ
deriving DecidableEq

/-- Modelled from the spec: a BucketState with available token count and
last-refill timestamp (seconds). -/
structure BucketState where
  tokens : ℚ
  lastRefill : ℚ
deriving DecidableEq

/-- Modelled from the spec: refill adds elapsed-time-times-rate tokens,
capped at the capacity. -/
def refillTokens (cfg : BucketConfig) (st : BucketState) (now : ℚ) : ℚ :=
  min (st.tokens + (now - st.lastRefill) * cfg.refillRate) cfg.capacity

/-- Modelled from the spec: `acquire` refills the bucket; with at least one
token available it consumes one and returns zero wait, otherwise it
consumes nothing and returns the duration until one token is available. -/
def acquire (cfg : BucketConfig) (st : BucketState) (now : ℚ) :
    ℚ × BucketState :=
  if 1 ≤ refillTokens cfg st now then
    (0, ⟨refillTokens cfg st now - 1, now⟩)
  else
    ((1 - refillTokens cfg st now) / cfg.refillRate,
     ⟨refillTokens cfg st now, now⟩)

/-- Modelled from the spec: a fresh bucket starts full. -/
def freshBucket (cfg : BucketConfig) (now : ℚ) : BucketState :=
  ⟨cfg.capacity, now⟩

/-- State reached after a sequence of acquire operations at the given
timestamps. -/
def acquireSeq (cfg : BucketConfig) (st : BucketState) (ts : List ℚ) :
    BucketState :=
  ts.foldl (fun s t => (acquire cfg s t).2) st

/-- Modelled from the spec: the per-second and per-minute windows of a
RateLimiterConfig are resolved to a single effective capacity-and-rate
pair in which the more restrictive window governs the admitted rate; the
capacity holds at least one token so that backoff eventually admits. -/
def resolveConfig (perSec perMin : ℚ) : BucketConfig :=
  if perSec ≤ perMin / 60 then ⟨max 1 perSec, perSec⟩
  else ⟨max 1 perMin, perMin / 60⟩

/-- The resolved refill rate is positive for positive windows. -/
theorem resolveConfig_rate_pos (s m : ℚ) (hs : 0 < s) (hm : 0 < m) :
    0 < (resolveConfig s m).refillRate := by
  unfold resolveConfig
  split
  · exact hs
  · positivity

/-- The resolved capacity holds at least one token. -/
theorem resolveConfig_cap_ge_one (s m : ℚ) :
    1 ≤ (resolveConfig s m).capacity := by
  unfold resolveConfig
  split <;> exact le_max_left _ _

/-- C2: `acquire` first refills by elapsed time times the rate, capped at
capacity; with at least one token it consumes one and returns zero wait;
otherwise it consumes nothing and the returned positive wait is exactly the
duration after which the refilled bucket holds one token.  In particular,
on a fresh bucket of capacity two and rate one token per second, two
immediate acquires return zero wait and a third returns a wait of one
second. -/
theorem acquire_spec (cfg : BucketConfig) (st : BucketState) (now : ℚ)
    (hR : 0 < cfg.refillRate) (hC : 1 ≤ cfg.capacity) :
    (1 ≤ refillTokens cfg st now →
      acquire cfg st now = (0, ⟨refillTokens cfg st now - 1, now⟩))
    ∧ (refillTokens cfg st now < 1 →
        acquire cfg st now =
          ((1 - refillTokens cfg st now) / cfg.refillRate,
           ⟨refillTokens cfg st now, now⟩)
        ∧ 0 < (acquire cfg st now).1
        ∧ refillTokens cfg ⟨refillTokens cfg st now, now⟩
            (now + (1 - refillTokens cfg st now) / cfg.refillRate) = 1)
    ∧ (acquire ⟨2, 1⟩ (freshBucket ⟨2, 1⟩ 0) 0 = (0, ⟨1, 0⟩)
       ∧ acquire ⟨2, 1⟩ ⟨1, 0⟩ 0 = (0, ⟨0, 0⟩)
       ∧ acquire ⟨2, 1⟩ ⟨0, 0⟩ 0 = (1, ⟨0, 0⟩)) := by
  refine ⟨?_, ?_, ?_, ?_, ?_⟩
  · intro h
    simp [acquire, h]
  · intro h
    have hn : ¬ 1 ≤ refillTokens cfg st now := not_le.mpr h
    have heq : acquire cfg st now =
        ((1 - refillTokens cfg st now) / cfg.refillRate,
         ⟨refillTokens cfg st now, now⟩) := by
      simp [acquire, hn]
    refine ⟨heq, ?_, ?_⟩
    · rw [heq]
      exact div_pos (by linarith) hR
    · have hR0 : cfg.refillRate ≠ 0 := ne_of_gt hR
      simp only [refillTokens]
      rw [show now + (1 - min (st.tokens + (now - st.lastRefill) * cfg.refillRate)
            cfg.capacity) / cfg.refillRate - now =
          (1 - min (st.tokens + (now - st.lastRefill) * cfg.refillRate)
            cfg.capacity) / cfg.refillRate from by ring]
      rw [div_mul_cancel₀ _ hR0]
      rw [show min (st.tokens + (now - st.lastRefill) * cfg.refillRate)
            cfg.capacity +
          (1 - min (st.tokens + (now - st.lastRefill) * cfg.refillRate)
            cfg.capacity) = 1 from by ring]
      exact min_eq_left hC
  · norm_num [acquire, refillTokens, freshBucket]
  · norm_num [acquire, refillTokens]
  · norm_num [acquire, refillTokens]

/-- Witness for C2: the concrete capacity-two, rate-one scenario. -/
theorem acquire_spec_witness :
    acquire ⟨2, 1⟩ (freshBucket ⟨2, 1⟩ 0) 0 = (0, ⟨1, 0⟩)
    ∧ acquire ⟨2, 1⟩ ⟨1, 0⟩ 0 = (0, ⟨0, 0⟩)
    ∧ acquire ⟨2, 1⟩ ⟨0, 0⟩ 0 = (1, ⟨0, 0⟩) :=
  (acquire_spec ⟨2, 1⟩ ⟨2, 0⟩ 0 one_pos one_le_two).2.2

/-- C3: for every bucket resolved from positive per-second and per-minute
windows, the available token count never exceeds the capacity after any
acquire and after any nonempty sequence of acquires, is never negative
after a successful (zero-wait) acquire, and after the bucket has been idle
for at least capacity-over-rate seconds the next acquire returns zero
wait. -/
theorem bucket_invariants (s m : ℚ) (hs : 0 < s) (hm : 0 < m) :
    (∀ st now,
      ((acquire (resolveConfig s m) st now).2).tokens ≤
        (resolveConfig s m).capacity)
    ∧ (∀ st (ts : List ℚ) (t : ℚ),
        (acquireSeq (resolveConfig s m) st (ts ++ [t])).tokens ≤
          (resolveConfig s m).capacity)
    ∧ (∀ st now, (acquire (resolveConfig s m) st now).1 = 0 →
        0 ≤ ((acquire (resolveConfig s m) st now).2).tokens)
    ∧ (∀ st now, 0 ≤ st.tokens →
        (resolveConfig s m).capacity / (resolveConfig s m).refillRate ≤
          now - st.lastRefill →
        (acquire (resolveConfig s m) st now).1 = 0) := by
  have hR := resolveConfig_rate_pos s m hs hm
  have hC := resolveConfig_cap_ge_one s m
  have hcap : ∀ st now,
      ((acquire (resolveConfig s m) st now).2).tokens ≤
        (resolveConfig s m).capacity := by
    intro st now
    have hmin : refillTokens (resolveConfig s m) st now ≤
        (resolveConfig s m).capacity := min_le_right _ _
    unfold acquire
    split
    · show refillTokens (resolveConfig s m) st now - 1 ≤
        (resolveConfig s m).capacity
      linarith
    · exact hmin
  refine ⟨hcap, ?_, ?_, ?_⟩
  · intro st ts t
    rw [acquireSeq, List.foldl_append]
    exact hcap _ t
  · intro st now hzero
    unfold acquire at hzero ⊢
    split at hzero
    · rename_i h
      rw [if_pos h]
      show (0 : ℚ) ≤ refillTokens (resolveConfig s m) st now - 1
      linarith
    · rename_i h
      exfalso
      have hpos : 0 < (1 - refillTokens (resolveConfig s m) st now) /
          (resolveConfig s m).refillRate :=
        div_pos (by linarith [not_le.mp h]) hR
      have hz2 : (1 - refillTokens (resolveConfig s m) st now) /
          (resolveConfig s m).refillRate = 0 := hzero
      linarith
  · intro st now htok hidle
    have hcr : (resolveConfig s m).capacity ≤
        (now - st.lastRefill) * (resolveConfig s m).refillRate := by
      have := mul_le_mul_of_nonneg_right hidle (le_of_lt hR)
      rwa [div_mul_cancel₀ _ (ne_of_gt hR)] at this
    have hfull : refillTokens (resolveConfig s m) st now =
        (resolveConfig s m).capacity := by
      unfold refillTokens
      exact min_eq_right (by linarith)
    have hone : 1 ≤ refillTokens (resolveConfig s m) st now := by
      rw [hfull]; exact hC
    simp [acquire, hone]

/-- Witness for C3 at the documented per-second two, per-minute one-hundred
configuration. -/
theorem bucket_invariants_witness :
    ((acquire (resolveConfig 2 100) ⟨0, 0⟩ 60).2).tokens ≤
      (resolveConfig 2 100).capacity
    ∧ (acquire (resolveConfig 2 100) ⟨0, 0⟩ 60).1 = 0 := by
  have h := bucket_invariants 2 100 two_pos (by norm_num)
  refine ⟨h.1 ⟨0, 0⟩ 60, ?_⟩
  exact h.2.2.2 ⟨0, 0⟩ 60 le_rfl (by norm_num [resolveConfig])

/-- C9: resolving a per-second and a per-minute window yields a single
effective pair whose refill rate is the minimum of the two windows' rates,
so the more restrictive window governs the admitted request rate: over any
nonnegative duration the granted tokens respect both windows' rates. -/
theorem effective_rate_most_restrictive (s m : ℚ) (_hs : 0 < s) (_hm : 0 < m) :
    (resolveConfig s m).refillRate = min s (m / 60)
    ∧ (resolveConfig s m).refillRate ≤ s
    ∧ (resolveConfig s m).refillRate ≤ m / 60
    ∧ ((resolveConfig s m).refillRate = s ∨
       (resolveConfig s m).refillRate = m / 60)
    ∧ (∀ d : ℚ, 0 ≤ d →
        d * (resolveConfig s m).refillRate ≤ d * s
        ∧ d * (resolveConfig s m).refillRate ≤ d * (m / 60)) := by
  have hmin : (resolveConfig s m).refillRate = min s (m / 60) := by
    unfold resolveConfig
    rcases le_or_lt s (m / 60) with h | h
    · simp [h, min_eq_left h]
    · simp [not_le.mpr h, min_eq_right (le_of_lt h)]
  refine ⟨hmin, ?_, ?_, ?_, ?_⟩
  · rw [hmin]; exact min_le_left _ _
  · rw [hmin]; exact min_le_right _ _
  · rw [hmin]
    rcases le_total s (m / 60) with h | h
    · exact Or.inl (min_eq_left h)
    · exact Or.inr (min_eq_right h)
  · intro d hd
    constructor
    · exact mul_le_mul_of_nonneg_left (hmin ▸ min_le_left _ _) hd
    · exact mul_le_mul_of_nonneg_left (hmin ▸ min_le_right _ _) hd

/-- Witness for C9 at the documented per-second half, per-minute twenty
configuration of the web-search tool. -/
theorem effective_rate_most_restrictive_witness :
    (resolveConfig (1/2) 20).refillRate = min (1/2) (20 / 60)
    ∧ (resolveConfig (1/2) 20).refillRate ≤ 1/2
    ∧ (resolveConfig (1/2) 20).refillRate ≤ 20 / 60 := by
  have h := effective_rate_most_restrictive (1/2) 20 one_half_pos (by norm_num)
  exact ⟨h.1, h.2.1, h.2.2.1⟩
